import Mathlib

/-!
Verification of the escape-time fractal kernel (`mandelbrot` in
`notebooks/chapter05_hpc/03_ctypes.ipynb`).

The C routine is

    void mandelbrot(int size, int iterations, int *col) {
      int i, j, n, index;
      double cx, cy, z0, z1, z0_tmp, z0_2, z1_2;
      for (i = 0; i < size; i++) {
        cy = -1.5 + (double)i / size * 3;
        for (j = 0; j < size; j++) {
          cx = -2.0 + (double)j / size * 3;
          index = i * size + j;
          z0 = 0.0; z1 = 0.0;
          for (n = 0; n < iterations; n++) {
            z0_2 = z0 * z0;
            z1_2 = z1 * z1;
            if (z0_2 + z1_2 <= 100) {
              z0_tmp = z0_2 - z1_2 + cx;
              z1 = 2 * z0 * z1 + cy;
              z0 = z0_tmp;
              col[index] = n;
            } else break;
          }
        }
      }
    }

We embed it shallowly: real (double) arithmetic is modelled by exact
rational arithmetic `ℚ`, machine `int` by `ℤ` (no index or counter in the
claims under verification approaches 2^31), and the memory writes that the
routine performs on `col` are recorded as an explicit ordered trace of
(index, value) pairs, which is then folded over the initial buffer to give
the final buffer.  All properties proved below are control-flow/indexing
properties that hold over any ordered field interpretation of the
arithmetic, so the `ℚ` model is faithful to them.
-/

namespace Mandelbrot

/-- One execution of the non-escaping branch of the inner loop body of the C
code, acting on the pair `(z0, z1)`: `z0_tmp = z0_2 - z1_2 + cx` is computed
first, then `z1 = 2*z0*z1 + cy` (the old `z0` is still live), then
`z0 = z0_tmp`. -/
def implStepPair (cx cy : ℚ) (z : ℚ × ℚ) : ℚ × ℚ :=
  let z0 := z.1
  let z1 := z.2
  let z0_2 := z0 * z0
  let z1_2 := z1 * z1
  let z0_tmp := z0_2 - z1_2 + cx
  let z1n := 2 * z0 * z1 + cy
  (z0_tmp, z1n)

/-- The same update in the order the spec's pseudocode writes it:
`z1_new = 2*z0*z1 + cy` first, then `z0 = z0_sq - z1_sq + cx`, then
`z1 = z1_new`. -/
def specStepPair (cx cy : ℚ) (z : ℚ × ℚ) : ℚ × ℚ :=
  let z0 := z.1
  let z1 := z.2
  let z0_sq := z0 * z0
  let z1_sq := z1 * z1
  let z1_new := 2 * z0 * z1 + cy
  let z0n := z0_sq - z1_sq + cx
  (z0n, z1_new)

/-- The escape test of the C code: the loop body runs (and records `n`)
exactly when `z0*z0 + z1*z1 <= 100`. -/
def noEscape (z : ℚ × ℚ) : Prop := z.1 * z.1 + z.2 * z.2 ≤ 100

instance (z : ℚ × ℚ) : Decidable (noEscape z) := by
  unfold noEscape; infer_instance

/-- The sequence of values `n` assigned to `col[index]` by the inner
`for (n = 0; n < iterations; n++)` loop, starting from state `z` with loop
counter `n` and `fuel` remaining iterations. -/
def innerWrites (cx cy : ℚ) (z : ℚ × ℚ) : ℕ → ℕ → List ℕ
  | 0, _ => []
  | fuel + 1, n =>
    if noEscape z then
      n :: innerWrites cx cy (implStepPair cx cy z) fuel (n + 1)
    else []

/-- Number of non-escaping steps the inner loop performs from state `z`
with `fuel` remaining iterations. -/
def steps (cx cy : ℚ) (z : ℚ × ℚ) : ℕ → ℕ
  | 0 => 0
  | fuel + 1 =>
    if noEscape z then steps cx cy (implStepPair cx cy z) fuel + 1 else 0

/-- `cy = -1.5 + (double)i / size * 3` of the C code. -/
def cyOf (size i : ℤ) : ℚ := -1.5 + (i : ℚ) / (size : ℚ) * 3

/-- `cx = -2.0 + (double)j / size * 3` of the C code. -/
def cxOf (size j : ℤ) : ℚ := -2.0 + (j : ℚ) / (size : ℚ) * 3

/-- The ordered list of writes `(index, value)` the call performs for cell
`(i, j)`: every non-escaping iteration writes `col[i*size + j] = n`. -/
def cellWrites (size iterations i j : ℤ) : List (ℤ × ℤ) :=
  (innerWrites (cxOf size j) (cyOf size i) (0, 0) iterations.toNat 0).map
    (fun n : ℕ => (i * size + j, (n : ℤ)))

/-- All writes performed while scanning row `i` (the inner `j` loop). -/
def rowWrites (size iterations i : ℤ) : List (ℤ × ℤ) :=
  (List.range size.toNat).flatMap (fun j => cellWrites size iterations i (j : ℤ))

/-- The full ordered write trace of one call `mandelbrot(size, iterations, col)`. -/
def writeTrace (size iterations : ℤ) : List (ℤ × ℤ) :=
  (List.range size.toNat).flatMap (fun i => rowWrites size iterations (i : ℤ))

/-- Replay a write trace over a buffer (modelled as a total map `ℤ → ℤ`). -/
def applyWrites : List (ℤ × ℤ) → (ℤ → ℤ) → ℤ → ℤ
  | [], col => col
  | p :: w, col => applyWrites w (Function.update col p.1 p.2)

/-- The embedded C routine: the final buffer contents after the call, as a
function of `size`, `iterations` and the initial buffer contents. -/
def mandelbrot (size iterations : ℤ) (col : ℤ → ℤ) : ℤ → ℤ :=
  applyWrites (writeTrace size iterations) col

/-- Number of non-escaping steps of cell `(i, j)`. -/
def cellCount (size iterations i j : ℤ) : ℕ :=
  steps (cxOf size j) (cyOf size i) (0, 0) iterations.toNat

/-- The last value written to buffer index `idx` by a trace, if any. -/
def lastWrite (idx : ℤ) : List (ℤ × ℤ) → Option ℤ
  | [] => none
  | p :: w => (lastWrite idx w).or (if p.1 = idx then some p.2 else none)

theorem lastWrite_append (idx : ℤ) (A B : List (ℤ × ℤ)) :
    lastWrite idx (A ++ B) = (lastWrite idx B).or (lastWrite idx A) := by
  induction A with
  | nil => simp [lastWrite]
  | cons p A ih =>
      show (lastWrite idx (A ++ B)).or (if p.1 = idx then some p.2 else none) =
        (lastWrite idx B).or ((lastWrite idx A).or (if p.1 = idx then some p.2 else none))
      rw [ih, Option.or_assoc]

theorem lastWrite_eq_none (idx : ℤ) (w : List (ℤ × ℤ))
    (h : ∀ p ∈ w, p.1 ≠ idx) : lastWrite idx w = none := by
  induction w with
  | nil => rfl
  | cons p w ih =>
      have hp : p.1 ≠ idx := h p (List.mem_cons_self p w)
      simp [lastWrite, ih fun q hq => h q (List.mem_cons_of_mem p hq), hp]

/-- Replaying a trace leaves index `idx` at the last value written there,
or at its initial value if the trace never touches `idx`. -/
theorem applyWrites_eq (w : List (ℤ × ℤ)) (col : ℤ → ℤ) (idx : ℤ) :
    applyWrites w col idx = (lastWrite idx w).getD (col idx) := by
  induction w generalizing col with
  | nil => rfl
  | cons p w ih =>
      show applyWrites w (Function.update col p.1 p.2) idx = _
      rw [ih]
      cases hlw : lastWrite idx w with
      | some v => simp [lastWrite, hlw]
      | none =>
          simp only [lastWrite, hlw, Option.none_or]
          rw [Function.update_apply]
          by_cases hp : p.1 = idx
          · simp [hp]
          · simp [hp, Ne.symm hp]

/-- If `a` is the only element of a duplicate-free list whose writes can
touch `idx`, the last write to `idx` of the concatenated trace is the last
write of `a`'s block. -/
theorem lastWrite_flatMap {α : Type} (idx : ℤ) (l : List α)
    (f : α → List (ℤ × ℤ)) (a : α) (ha : a ∈ l) (hnd : l.Nodup)
    (hmiss : ∀ b ∈ l, b ≠ a → ∀ p ∈ f b, p.1 ≠ idx) :
    lastWrite idx (l.flatMap f) = lastWrite idx (f a) := by
  induction l with
  | nil => cases ha
  | cons b l ih =>
      rw [List.flatMap_cons, lastWrite_append]
      rcases List.mem_cons.1 ha with rfl | hal
      · have hnone : lastWrite idx (l.flatMap f) = none := by
          apply lastWrite_eq_none
          intro p hp
          rcases List.mem_flatMap.1 hp with ⟨c, hc, hpc⟩
          have hcb : c ≠ a := fun hceq => (List.nodup_cons.1 hnd).1 (hceq ▸ hc)
          exact hmiss c (List.mem_cons_of_mem _ hc) hcb p hpc
        rw [hnone, Option.none_or]
      · have hba : b ≠ a := by
          rintro rfl; exact (List.nodup_cons.1 hnd).1 hal
        have hrec := ih hal (List.nodup_cons.1 hnd).2
          (fun c hc hca p hp => hmiss c (List.mem_cons_of_mem _ hc) hca p hp)
        rw [hrec]
        cases hfa : lastWrite idx (f a) with
        | some v => rfl
        | none =>
            have : lastWrite idx (f b) = none :=
              lastWrite_eq_none _ _ fun p hp =>
                hmiss b (List.mem_cons_self b l) hba p hp
            rw [Option.none_or]
            exact this

theorem steps_le (cx cy : ℚ) (z : ℚ × ℚ) (fuel : ℕ) :
    steps cx cy z fuel ≤ fuel := by
  induction fuel generalizing z with
  | zero => exact Nat.le_refl 0
  | succ fuel ih =>
      rw [steps]
      split
      · exact Nat.succ_le_succ (ih _)
      · exact Nat.zero_le _

theorem steps_pos (cx cy : ℚ) (z : ℚ × ℚ) (fuel : ℕ)
    (hz : noEscape z) (hf : 0 < fuel) : 0 < steps cx cy z fuel := by
  cases fuel with
  | zero => cases hf
  | succ fuel => rw [steps, if_pos hz]; exact Nat.succ_pos _

/-- The inner loop writes the consecutive counter values
`n, n+1, …, n + steps − 1`. -/
theorem innerWrites_eq_range' (cx cy : ℚ) (z : ℚ × ℚ) (fuel n : ℕ) :
    innerWrites cx cy z fuel n = List.range' n (steps cx cy z fuel) := by
  induction fuel generalizing z n with
  | zero => rfl
  | succ fuel ih =>
      rw [innerWrites, steps]
      by_cases hz : noEscape z
      · rw [if_pos hz, if_pos hz, ih, List.range'_succ]
      · rw [if_neg hz, if_neg hz, List.range']

theorem noEscape_zero : noEscape ((0 : ℚ), (0 : ℚ)) := by
  norm_num [noEscape]

theorem mem_cellWrites_fst {size iterations i j : ℤ} {p : ℤ × ℤ}
    (hp : p ∈ cellWrites size iterations i j) : p.1 = i * size + j := by
  rcases List.mem_map.1 hp with ⟨n, _, rfl⟩
  rfl

/-- Distinct in-range cells map to distinct linear indices (the `j` parts
are the remainders, the `i` parts the quotients). -/
theorem index_inj {size i j i' j' : ℤ} (hj0 : 0 ≤ j) (hj1 : j < size)
    (hj0' : 0 ≤ j') (hj1' : j' < size)
    (h : i * size + j = i' * size + j') : i = i' ∧ j = j' := by
  have hs0 : 0 < size := lt_of_le_of_lt hj0 hj1
  have hi : i = i' := by
    rcases lt_trichotomy i i' with hlt | heq | hgt
    · exfalso
      have hcal : i * size + j < i' * size + j' :=
        calc i * size + j < i * size + size := by omega
          _ = (i + 1) * size := by ring
          _ ≤ i' * size := mul_le_mul_of_nonneg_right (by omega) (le_of_lt hs0)
          _ ≤ i' * size + j' := by omega
      omega
    · exact heq
    · exfalso
      have hcal : i' * size + j' < i * size + j :=
        calc i' * size + j' < i' * size + size := by omega
          _ = (i' + 1) * size := by ring
          _ ≤ i * size := mul_le_mul_of_nonneg_right (by omega) (le_of_lt hs0)
          _ ≤ i * size + j := by omega
      omega
  exact ⟨hi, by rw [hi] at h; omega⟩

theorem mem_rowWrites_fst {size iterations i : ℤ} {p : ℤ × ℤ}
    (hp : p ∈ rowWrites size iterations i) :
    ∃ j : ℤ, 0 ≤ j ∧ j < size ∧ p.1 = i * size + j := by
  rcases List.mem_flatMap.1 hp with ⟨jn, hjn, hpc⟩
  have hj := List.mem_range.1 hjn
  exact ⟨(jn : ℤ), Int.ofNat_nonneg jn, by omega, mem_cellWrites_fst hpc⟩

/-- The value of the final buffer at the cell index `i*size + j` is decided
by the last write of cell `(i, j)` alone: no other cell touches that index. -/
theorem mandelbrot_cell_eq (size iterations i j : ℤ) (col : ℤ → ℤ)
    (hi0 : 0 ≤ i) (hi1 : i < size) (hj0 : 0 ≤ j) (hj1 : j < size) :
    mandelbrot size iterations col (i * size + j) =
      (lastWrite (i * size + j) (cellWrites size iterations i j)).getD
        (col (i * size + j)) := by
  rw [mandelbrot, applyWrites_eq]
  congr 1
  rw [writeTrace]
  have houter :
      lastWrite (i * size + j)
          ((List.range size.toNat).flatMap (fun i' => rowWrites size iterations (i' : ℤ))) =
        lastWrite (i * size + j) (rowWrites size iterations ((i.toNat : ℕ) : ℤ)) := by
    apply lastWrite_flatMap _ _ _ i.toNat (List.mem_range.2 (by omega)) (List.nodup_range _)
    intro b _ hb p hp
    rcases mem_rowWrites_fst hp with ⟨j', hj0', hj1', hfst⟩
    rw [hfst]
    intro hcon
    rcases index_inj hj0' hj1' hj0 hj1 hcon with ⟨hbi, _⟩
    exact hb (by omega)
  rw [houter, Int.toNat_of_nonneg hi0, rowWrites]
  have hinner :
      lastWrite (i * size + j)
          ((List.range size.toNat).flatMap (fun j' => cellWrites size iterations i (j' : ℤ))) =
        lastWrite (i * size + j) (cellWrites size iterations i ((j.toNat : ℕ) : ℤ)) := by
    apply lastWrite_flatMap _ _ _ j.toNat (List.mem_range.2 (by omega)) (List.nodup_range _)
    intro b _ hb p hp
    have hfst := mem_cellWrites_fst hp
    rw [hfst]
    intro hcon
    exact hb (by omega)
  rw [hinner, Int.toNat_of_nonneg hj0]

theorem lastWrite_range'_map (idx : ℤ) (s n : ℕ) :
    lastWrite idx ((List.range' n s).map (fun m : ℕ => (idx, (m : ℤ)))) =
      if s = 0 then none else some (((n + s - 1 : ℕ) : ℤ)) := by
  induction s generalizing n with
  | zero => rfl
  | succ s ih =>
      rw [List.range'_succ, List.map_cons]
      show (lastWrite idx ((List.range' (n + 1) s).map
          (fun m : ℕ => (idx, (m : ℤ))))).or (if idx = idx then some ((n : ℤ)) else none) = _
      rw [ih, if_pos rfl, if_neg (Nat.succ_ne_zero s)]
      rcases Nat.eq_zero_or_pos s with rfl | hs
      · rfl
      · rw [if_neg (by omega)]
        show some _ = some _
        congr 1
        omega

theorem lastWrite_cellWrites (size iterations i j : ℤ) :
    lastWrite (i * size + j) (cellWrites size iterations i j) =
      if cellCount size iterations i j = 0 then none
      else some (((cellCount size iterations i j - 1 : ℕ) : ℤ)) := by
  rw [cellWrites, innerWrites_eq_range', lastWrite_range'_map]
  rw [show steps (cxOf size j) (cyOf size i) (0, 0) iterations.toNat =
    cellCount size iterations i j from rfl]
  rcases Nat.eq_zero_or_pos (cellCount size iterations i j) with h | h
  · rw [h]
  · rw [if_neg (by omega), if_neg (by omega), Nat.zero_add]

theorem cellCount_pos (size iterations i j : ℤ) (hit : 0 < iterations) :
    0 < cellCount size iterations i j :=
  steps_pos _ _ _ _ noEscape_zero (by omega)

/-- Workhorse: for any in-range cell of a valid call, the final buffer holds
that cell's non-escaping step count minus one, independently of the initial
buffer. -/
theorem mandelbrot_cell (size iterations i j : ℤ) (col : ℤ → ℤ)
    (hit : 0 < iterations) (hi0 : 0 ≤ i) (hi1 : i < size)
    (hj0 : 0 ≤ j) (hj1 : j < size) :
    mandelbrot size iterations col (i * size + j) =
      ((cellCount size iterations i j - 1 : ℕ) : ℤ) := by
  rw [mandelbrot_cell_eq size iterations i j col hi0 hi1 hj0 hj1,
    lastWrite_cellWrites,
    if_neg (by have := cellCount_pos size iterations i j hit; omega)]
  rfl

theorem idx_decomp (size idx : ℤ) (hs : 0 < size) (h0 : 0 ≤ idx)
    (h1 : idx < size * size) :
    0 ≤ idx / size ∧ idx / size < size ∧ 0 ≤ idx % size ∧ idx % size < size ∧
      (idx / size) * size + idx % size = idx := by
  have hmod0 : 0 ≤ idx % size := Int.emod_nonneg idx (ne_of_gt hs)
  have hmod1 : idx % size < size := Int.emod_lt_of_pos idx hs
  have hdiv0 : 0 ≤ idx / size := Int.ediv_nonneg h0 (le_of_lt hs)
  have heq : size * (idx / size) + idx % size = idx := Int.ediv_add_emod idx size
  have hcomm : (idx / size) * size = size * (idx / size) := mul_comm _ _
  have hdiv1 : idx / size < size := by
    by_contra hc
    push_neg at hc
    have hmul : size * size ≤ size * (idx / size) :=
      mul_le_mul_of_nonneg_left hc (le_of_lt hs)
    linarith
  exact ⟨hdiv0, hdiv1, hmod0, hmod1, by linarith⟩

theorem mandelbrot_idx (size iterations idx : ℤ) (col : ℤ → ℤ)
    (hs : 0 < size) (hit : 0 < iterations) (h0 : 0 ≤ idx)
    (h1 : idx < size * size) :
    mandelbrot size iterations col idx =
      ((cellCount size iterations (idx / size) (idx % size) - 1 : ℕ) : ℤ) := by
  obtain ⟨d0, d1, m0, m1, heq⟩ := idx_decomp size idx hs h0 h1
  conv_lhs => rw [← heq]
  exact mandelbrot_cell size iterations (idx / size) (idx % size) col hit d0 d1 m0 m1

/-- If no state of the trajectory escapes before the fuel runs out, the
loop performs `fuel` non-escaping steps. -/
theorem steps_eq_fuel (cx cy : ℚ) (z : ℚ × ℚ) (fuel : ℕ)
    (h : ∀ k < fuel, noEscape ((implStepPair cx cy)^[k] z)) :
    steps cx cy z fuel = fuel := by
  induction fuel generalizing z with
  | zero => rfl
  | succ fuel ih =>
      have h0 : noEscape z := by
        have := h 0 (Nat.succ_pos fuel)
        rwa [Function.iterate_zero_apply] at this
      rw [steps, if_pos h0, ih]
      intro k hk
      rw [← Function.iterate_succ_apply]
      exact h (k + 1) (Nat.succ_lt_succ hk)

/-- If the trajectory first escapes at step `k` and `k` is within the fuel,
the loop performs exactly `k` non-escaping steps. -/
theorem steps_eq_of_escape (cx cy : ℚ) (z : ℚ × ℚ) (fuel k : ℕ)
    (hk : k < fuel)
    (hmin : ∀ m < k, noEscape ((implStepPair cx cy)^[m] z))
    (hesc : ¬ noEscape ((implStepPair cx cy)^[k] z)) :
    steps cx cy z fuel = k := by
  induction fuel generalizing z k with
  | zero => cases hk
  | succ fuel ih =>
      cases k with
      | zero =>
          rw [Function.iterate_zero_apply] at hesc
          rw [steps, if_neg hesc]
      | succ k =>
          have h0 : noEscape z := by
            have := hmin 0 (Nat.succ_pos k)
            rwa [Function.iterate_zero_apply] at this
          rw [steps, if_pos h0]
          have hrec := ih (implStepPair cx cy z) k (Nat.lt_of_succ_lt_succ hk)
            (fun m hm => by
              rw [← Function.iterate_succ_apply]
              exact hmin (m + 1) (Nat.succ_lt_succ hm))
            (by rwa [← Function.iterate_succ_apply])
          rw [hrec]

/-- The spec's per-cell loop, written exactly as §4.1 of the spec states it:
`result` starts at `0`; each step tests `z0_sq + z1_sq > 100.0` and stops
without recording, otherwise computes `z1_new = 2*z0*z1 + cy` first, then
`z0 = z0_sq - z1_sq + cx`, then `z1 = z1_new`, and records `result = n`. -/
def specInner (cx cy : ℚ) (z : ℚ × ℚ) : ℕ → ℕ → ℕ → ℕ
  | 0, _, result => result
  | fuel + 1, n, result =>
    if 100 < z.1 * z.1 + z.2 * z.2 then result
    else specInner cx cy (specStepPair cx cy z) fuel (n + 1) n

/-- The spec's reference value of cell `(i, j)`. -/
def specCellValue (size iterations i j : ℤ) : ℤ :=
  (specInner (cxOf size j) (cyOf size i) (0, 0) iterations.toNat 0 0 : ℕ)

theorem specStepPair_eq_implStepPair (cx cy : ℚ) (z : ℚ × ℚ) :
    specStepPair cx cy z = implStepPair cx cy z := rfl

theorem specInner_eq (cx cy : ℚ) (z : ℚ × ℚ) (fuel n r : ℕ) :
    specInner cx cy z fuel n r =
      if steps cx cy z fuel = 0 then r else n + steps cx cy z fuel - 1 := by
  induction fuel generalizing z n r with
  | zero => rfl
  | succ fuel ih =>
      rw [specInner, steps]
      by_cases hz : noEscape z
      · rw [if_neg (not_lt.2 hz), if_pos hz, specStepPair_eq_implStepPair, ih]
        rcases Nat.eq_zero_or_pos (steps cx cy (implStepPair cx cy z) fuel) with h | h
        · rw [h, if_pos rfl, if_neg (Nat.succ_ne_zero 0)]
          omega
        · rw [if_neg (by omega), if_neg (Nat.succ_ne_zero _)]
          omega
      · rw [if_pos (not_le.1 hz), if_neg hz, if_pos rfl]

/-- Number of writes a trace performs at buffer index `idx`. -/
def writeCount (idx : ℤ) (w : List (ℤ × ℤ)) : ℕ :=
  w.countP (fun p => p.1 == idx)

theorem writeCount_eq_zero (idx : ℤ) (w : List (ℤ × ℤ))
    (h : ∀ p ∈ w, p.1 ≠ idx) : writeCount idx w = 0 := by
  rw [writeCount, List.countP_eq_zero]
  intro p hp
  simpa using h p hp

theorem writeCount_flatMap {α : Type} (idx : ℤ) (l : List α)
    (f : α → List (ℤ × ℤ)) (a : α) (ha : a ∈ l) (hnd : l.Nodup)
    (hmiss : ∀ b ∈ l, b ≠ a → ∀ p ∈ f b, p.1 ≠ idx) :
    writeCount idx (l.flatMap f) = writeCount idx (f a) := by
  induction l with
  | nil => cases ha
  | cons b l ih =>
      rw [List.flatMap_cons, writeCount, List.countP_append]
      rcases List.mem_cons.1 ha with rfl | hal
      · have hz : writeCount idx (l.flatMap f) = 0 := by
          apply writeCount_eq_zero
          intro p hp
          rcases List.mem_flatMap.1 hp with ⟨c, hc, hpc⟩
          have hca : c ≠ a := fun hceq => (List.nodup_cons.1 hnd).1 (hceq ▸ hc)
          exact hmiss c (List.mem_cons_of_mem _ hc) hca p hpc
        rw [writeCount] at hz
        rw [hz, Nat.add_zero]
        rfl
      · have hba : b ≠ a := by
          rintro rfl; exact (List.nodup_cons.1 hnd).1 hal
        have hz : writeCount idx (f b) = 0 :=
          writeCount_eq_zero _ _ fun p hp =>
            hmiss b (List.mem_cons_self b l) hba p hp
        rw [writeCount] at hz
        rw [hz, Nat.zero_add]
        exact ih hal (List.nodup_cons.1 hnd).2
          (fun c hc hca p hp => hmiss c (List.mem_cons_of_mem _ hc) hca p hp)

theorem writeCount_cellWrites (size iterations i j : ℤ) :
    writeCount (i * size + j) (cellWrites size iterations i j) =
      cellCount size iterations i j := by
  rw [cellWrites, innerWrites_eq_range']
  have : ∀ l : List ℕ,
      writeCount (i * size + j)
        (l.map (fun n : ℕ => (i * size + j, (n : ℤ)))) = l.length := by
    intro l
    induction l with
    | nil => rfl
    | cons m l ihl =>
        rw [List.map_cons, writeCount, List.countP_cons]
        rw [writeCount] at ihl
        simp [ihl]
  rw [this, List.length_range']
  rfl

/-- The number of writes a call performs at a cell's linear index is
exactly that cell's non-escaping step count. -/
theorem writeCount_cell (size iterations i j : ℤ)
    (hi0 : 0 ≤ i) (hi1 : i < size) (hj0 : 0 ≤ j) (hj1 : j < size) :
    writeCount (i * size + j) (writeTrace size iterations) =
      cellCount size iterations i j := by
  rw [writeTrace]
  have houter :
      writeCount (i * size + j)
          ((List.range size.toNat).flatMap (fun i' => rowWrites size iterations (i' : ℤ))) =
        writeCount (i * size + j) (rowWrites size iterations ((i.toNat : ℕ) : ℤ)) := by
    apply writeCount_flatMap _ _ _ i.toNat (List.mem_range.2 (by omega)) (List.nodup_range _)
    intro b _ hb p hp
    rcases mem_rowWrites_fst hp with ⟨j', hj0', hj1', hfst⟩
    rw [hfst]
    intro hcon
    rcases index_inj hj0' hj1' hj0 hj1 hcon with ⟨hbi, _⟩
    exact hb (by omega)
  rw [houter, Int.toNat_of_nonneg hi0, rowWrites]
  have hinner :
      writeCount (i * size + j)
          ((List.range size.toNat).flatMap (fun j' => cellWrites size iterations i (j' : ℤ))) =
        writeCount (i * size + j) (cellWrites size iterations i ((j.toNat : ℕ) : ℤ)) := by
    apply writeCount_flatMap _ _ _ j.toNat (List.mem_range.2 (by omega)) (List.nodup_range _)
    intro b _ hb p hp
    have hfst := mem_cellWrites_fst hp
    rw [hfst]
    intro hcon
    exact hb (by omega)
  rw [hinner, Int.toNat_of_nonneg hj0, writeCount_cellWrites]

/-- Every in-range cell's index receives its step-`0` write. -/
theorem mem_writeTrace (size iterations i j : ℤ) (hit : 0 < iterations)
    (hi0 : 0 ≤ i) (hi1 : i < size) (hj0 : 0 ≤ j) (hj1 : j < size) :
    (i * size + j, (0 : ℤ)) ∈ writeTrace size iterations := by
  have hmem : (i * size + j, (0 : ℤ)) ∈ cellWrites size iterations i j := by
    rw [cellWrites, innerWrites_eq_range']
    apply List.mem_map.2
    refine ⟨0, ?_, rfl⟩
    have hpos : 0 < steps (cxOf size j) (cyOf size i) (0, 0) iterations.toNat :=
      cellCount_pos size iterations i j hit
    rcases Nat.exists_eq_succ_of_ne_zero (Nat.pos_iff_ne_zero.1 hpos) with ⟨s, hs⟩
    rw [hs, List.range'_succ]
    exact List.mem_cons_self _ _
  have hrow : (i * size + j, (0 : ℤ)) ∈ rowWrites size iterations i := by
    rw [rowWrites]
    apply List.mem_flatMap.2
    exact ⟨j.toNat, List.mem_range.2 (by omega),
      by rwa [Int.toNat_of_nonneg hj0]⟩
  rw [writeTrace]
  apply List.mem_flatMap.2
  exact ⟨i.toNat, List.mem_range.2 (by omega),
    by rwa [Int.toNat_of_nonneg hi0]⟩

theorem flatMap_nil {α β : Type} (l : List α) (f : α → List β)
    (h : ∀ a ∈ l, f a = []) : l.flatMap f = [] := by
  induction l with
  | nil => rfl
  | cons a l ih =>
      rw [List.flatMap_cons, h a (List.mem_cons_self a l),
        ih fun b hb => h b (List.mem_cons_of_mem a hb)]
      rfl

/-- With non-positive `size` the grid loops run zero times; with
non-positive `iterations` the inner loop runs zero times.  Either way the
call writes nothing. -/
theorem writeTrace_eq_nil (size iterations : ℤ)
    (h : size ≤ 0 ∨ iterations ≤ 0) : writeTrace size iterations = [] := by
  rcases h with h | h
  · rw [writeTrace, show size.toNat = 0 by omega]
    rfl
  · rw [writeTrace]
    apply flatMap_nil
    intro i _
    rw [rowWrites]
    apply flatMap_nil
    intro j _
    rw [cellWrites, show iterations.toNat = 0 by omega]
    rfl

/-- Trip count of the outer grid loop `for (i = 0; i < size; i++)`: the
rows enumerated by the trace. -/
def outerIterations (size : ℤ) : ℕ := (List.range size.toNat).length

theorem noEscape_iterate_lt_one (cx cy : ℚ) :
    ∀ m < 1, noEscape ((implStepPair cx cy)^[m] ((0 : ℚ), (0 : ℚ))) := by
  intro m hm
  have hm0 : m = 0 := Nat.lt_one_iff.1 hm
  subst hm0
  rw [Function.iterate_zero_apply]
  exact noEscape_zero

theorem writeTrace_one_one : writeTrace 1 1 = [(0, 0)] := by
  norm_num [writeTrace, rowWrites, cellWrites, innerWrites, noEscape,
    List.range_succ]

/-- C1: for every `size > 0`, `iterations > 0` and in-range cell `(i, j)`,
the implementation's temp-variable update order (`z0_tmp` computed first,
then `z1` reassigned, then `z0`) denotes the same step function as the
spec's order (`z1_new` computed first), so the two produce the same
`(z0, z1)` sequence; and the value the implementation leaves at
`col[i*size + j]` equals the spec's reference per-cell result. -/
theorem C1_update_order_refines_spec (size iterations i j : ℤ) (col : ℤ → ℤ)
    (hs : 0 < size) (hit : 0 < iterations)
    (hi0 : 0 ≤ i) (hi1 : i < size) (hj0 : 0 ≤ j) (hj1 : j < size) :
    implStepPair (cxOf size j) (cyOf size i) =
      specStepPair (cxOf size j) (cyOf size i)
    ∧ mandelbrot size iterations col (i * size + j) =
        specCellValue size iterations i j := by
  constructor
  · rfl
  · rw [mandelbrot_cell size iterations i j col hit hi0 hi1 hj0 hj1,
      specCellValue, specInner_eq]
    have hpos := cellCount_pos size iterations i j hit
    rw [if_neg (by
      intro hcon
      rw [show steps (cxOf size j) (cyOf size i) (0, 0) iterations.toNat =
        cellCount size iterations i j from rfl] at hcon
      omega)]
    rw [show steps (cxOf size j) (cyOf size i) (0, 0) iterations.toNat =
      cellCount size iterations i j from rfl]
    omega

theorem C1_witness :
    implStepPair (cxOf 1 0) (cyOf 1 0) = specStepPair (cxOf 1 0) (cyOf 1 0)
    ∧ mandelbrot 1 1 (fun _ => 0) (0 * 1 + 0) = specCellValue 1 1 0 0 :=
  C1_update_order_refines_spec 1 1 0 0 (fun _ => 0) (by decide) (by decide)
    (by decide) (by decide) (by decide) (by decide)

/-- C2: for `size > 0`, `iterations > 0`, every element of the output
buffer (every index in `[0, size*size)`) lies in `[0, iterations)` after
the call. -/
theorem C2_output_in_range (size iterations idx : ℤ) (col : ℤ → ℤ)
    (hs : 0 < size) (hit : 0 < iterations)
    (h0 : 0 ≤ idx) (h1 : idx < size * size) :
    0 ≤ mandelbrot size iterations col idx ∧
      mandelbrot size iterations col idx < iterations := by
  rw [mandelbrot_idx size iterations idx col hs hit h0 h1]
  have hle : cellCount size iterations (idx / size) (idx % size) ≤
      iterations.toNat := steps_le _ _ _ _
  constructor
  · exact Int.ofNat_nonneg _
  · omega

theorem C2_witness :
    0 ≤ mandelbrot 1 1 (fun _ => 0) 0 ∧ mandelbrot 1 1 (fun _ => 0) 0 < 1 :=
  C2_output_in_range 1 1 0 (fun _ => 0) (by decide) (by decide) (by decide)
    (by decide)

/-- C3: for a valid call and in-range cell `(i, j)`, let `n > 0` be the
step index at which the cell's iterate first satisfies
`z0^2 + z1^2 > 100` if that happens within the `iterations` budget, and
`n = iterations` if no state among the first `iterations` ones escapes:
the recorded value at `i*size + j` is exactly `n - 1`, the last
successfully completed pre-escape step index (`iterations - 1` for a cell
that never escapes within budget). -/
theorem C3_last_preescape_index (size iterations i j : ℤ) (col : ℤ → ℤ)
    (n : ℕ) (hit : 0 < iterations)
    (hi0 : 0 ≤ i) (hi1 : i < size) (hj0 : 0 ≤ j) (hj1 : j < size)
    (hn0 : 0 < n) (hnle : n ≤ iterations.toNat)
    (hmin : ∀ m < n,
      noEscape ((implStepPair (cxOf size j) (cyOf size i))^[m] (0, 0)))
    (hesc : n < iterations.toNat →
      ¬ noEscape ((implStepPair (cxOf size j) (cyOf size i))^[n] (0, 0))) :
    mandelbrot size iterations col (i * size + j) = (n : ℤ) - 1 := by
  rw [mandelbrot_cell size iterations i j col hit hi0 hi1 hj0 hj1]
  have hc : cellCount size iterations i j = n := by
    rcases Nat.lt_or_ge n iterations.toNat with hlt | hge
    · exact steps_eq_of_escape _ _ _ _ _ hlt hmin (hesc hlt)
    · have hn : n = iterations.toNat := le_antisymm hnle hge
      rw [hn]
      exact steps_eq_fuel _ _ _ _ (fun k hk => hmin k (by omega))
  rw [hc]
  omega

theorem C3_witness :
    mandelbrot 1 1 (fun _ => 0) (0 * 1 + 0) = ((1 : ℕ) : ℤ) - 1 :=
  C3_last_preescape_index 1 1 0 0 (fun _ => 0) 1 (by decide) (by decide)
    (by decide) (by decide) (by decide) (by decide) (by decide)
    (noEscape_iterate_lt_one _ _) (fun h => absurd h (by decide))

/-- C4 counterexample: the claim says a call with `size = 0` fails with an
`InvalidArgument` error.  The C routine has no validation and no error
path at all: at `size = 0` (with `iterations = 100`) it simply returns
normally, performing no write and leaving the buffer exactly as it was,
so no error of any kind is raised. -/
theorem C4_counterexample :
    writeTrace 0 100 = [] ∧ mandelbrot 0 100 (fun _ => 7) = (fun _ => 7) :=
  ⟨rfl, rfl⟩

/-- C4 (amended): for `size ≤ 0` or `iterations ≤ 0` the reference code
performs no validation and raises no `InvalidArgument` (it has no error
path): the call returns normally, performs no write, and leaves the
output buffer untouched.  This covers the spec's `size=0`, `size=-5` and
`iterations=0` cases. -/
theorem C4_no_invalid_argument_error (size iterations : ℤ) (col : ℤ → ℤ)
    (h : size ≤ 0 ∨ iterations ≤ 0) :
    writeTrace size iterations = [] ∧ mandelbrot size iterations col = col := by
  have htr := writeTrace_eq_nil size iterations h
  refine ⟨htr, ?_⟩
  rw [mandelbrot, htr]
  rfl

theorem C4_witness :
    writeTrace (-5) 3 = [] ∧ mandelbrot (-5) 3 (fun _ => 1) = (fun _ => 1) :=
  C4_no_invalid_argument_error (-5) 3 (fun _ => 1) (Or.inl (by decide))

/-- C5: for a valid call, every index in `[0, size*size)` is written by
the call (it occurs among the trace's write targets), and the final value
there does not depend on the initial buffer contents: no element retains
its pre-call value by omission. -/
theorem C5_every_element_overwritten (size iterations idx : ℤ)
    (col col₂ : ℤ → ℤ) (hs : 0 < size) (hit : 0 < iterations)
    (h0 : 0 ≤ idx) (h1 : idx < size * size) :
    idx ∈ (writeTrace size iterations).map Prod.fst ∧
      mandelbrot size iterations col idx =
        mandelbrot size iterations col₂ idx := by
  obtain ⟨d0, d1, m0, m1, heq⟩ := idx_decomp size idx hs h0 h1
  constructor
  · apply List.mem_map.2
    refine ⟨(idx, 0), ?_, rfl⟩
    rw [← heq]
    exact mem_writeTrace size iterations _ _ hit d0 d1 m0 m1
  · rw [mandelbrot_idx size iterations idx col hs hit h0 h1,
      mandelbrot_idx size iterations idx col₂ hs hit h0 h1]

theorem C5_witness :
    (0 : ℤ) ∈ (writeTrace 1 1).map Prod.fst ∧
      mandelbrot 1 1 (fun _ => 5) 0 = mandelbrot 1 1 (fun _ => 9) 0 :=
  C5_every_element_overwritten 1 1 0 (fun _ => 5) (fun _ => 9) (by decide)
    (by decide) (by decide) (by decide)

/-- C6: for every `size > 0`, a call with `iterations = 1` writes `0` into
every cell: the single step `n = 0` starts from `(0, 0)`, whose squared
magnitude `0` is `≤ 100`, so the step never escapes and records `0`. -/
theorem C6_iterations_one_all_zero (size idx : ℤ) (col : ℤ → ℤ)
    (hs : 0 < size) (h0 : 0 ≤ idx) (h1 : idx < size * size) :
    mandelbrot size 1 col idx = 0 := by
  rw [mandelbrot_idx size 1 idx col hs Int.one_pos h0 h1]
  have hone : cellCount size 1 (idx / size) (idx % size) = 1 := by
    show steps _ _ _ (1 : ℤ).toNat = 1
    rw [show (1 : ℤ).toNat = 1 from rfl, steps, if_pos noEscape_zero]
    rfl
  rw [hone]
  rfl

theorem C6_witness : mandelbrot 1 1 (fun _ => 3) 0 = 0 :=
  C6_iterations_one_all_zero 1 0 (fun _ => 3) (by decide) (by decide)
    (by decide)

/-- C7: two calls with the same `(size, iterations)` produce identical
output buffers regardless of the initial buffer contents of each run: the
buffer restricted to its `size*size` elements is a pure deterministic
function of `(size, iterations)` alone. -/
theorem C7_deterministic (size iterations : ℤ) (col₁ col₂ : ℤ → ℤ)
    (hs : 0 < size) (hit : 0 < iterations) :
    (List.range (size * size).toNat).map
        (fun k : ℕ => mandelbrot size iterations col₁ (k : ℤ)) =
      (List.range (size * size).toNat).map
        (fun k : ℕ => mandelbrot size iterations col₂ (k : ℤ)) := by
  apply List.map_congr_left
  intro k hk
  have hk2 := List.mem_range.1 hk
  have h0 : (0 : ℤ) ≤ (k : ℤ) := Int.ofNat_nonneg k
  have h1 : (k : ℤ) < size * size := by omega
  rw [mandelbrot_idx size iterations (k : ℤ) col₁ hs hit h0 h1,
    mandelbrot_idx size iterations (k : ℤ) col₂ hs hit h0 h1]

theorem C7_witness :
    (List.range ((1 : ℤ) * 1).toNat).map
        (fun k : ℕ => mandelbrot 1 1 (fun _ => 0) (k : ℤ)) =
      (List.range ((1 : ℤ) * 1).toNat).map
        (fun k : ℕ => mandelbrot 1 1 (fun _ => 1) (k : ℤ)) :=
  C7_deterministic 1 1 (fun _ => 0) (fun _ => 1) (by decide) (by decide)

/-- C8: for `size > 0`, every buffer access the call performs is a write
whose target is a linear index `i*size + j` with `0 ≤ i < size` and
`0 ≤ j < size`; in particular every accessed index lies in
`[0, size*size)`, so under the precondition that the buffer holds
`size*size` elements no out-of-bounds access occurs (the routine never
reads the buffer). -/
theorem C8_writes_in_bounds (size iterations : ℤ) (p : ℤ × ℤ)
    (hs : 0 < size) (hp : p ∈ writeTrace size iterations) :
    0 ≤ p.1 ∧ p.1 < size * size ∧
      ∃ i j : ℤ, 0 ≤ i ∧ i < size ∧ 0 ≤ j ∧ j < size ∧
        p.1 = i * size + j := by
  rw [writeTrace] at hp
  rcases List.mem_flatMap.1 hp with ⟨i', hi', hrow⟩
  have hi2 := List.mem_range.1 hi'
  rcases mem_rowWrites_fst hrow with ⟨j, hj0, hj1, hfst⟩
  have hi0 : (0 : ℤ) ≤ (i' : ℤ) := Int.ofNat_nonneg i'
  have hi1 : ((i' : ℕ) : ℤ) < size := by omega
  refine ⟨?_, ?_, (i' : ℤ), j, hi0, hi1, hj0, hj1, hfst⟩
  · rw [hfst]
    have : (0 : ℤ) ≤ (i' : ℤ) * size := mul_nonneg hi0 (le_of_lt hs)
    omega
  · rw [hfst]
    calc (i' : ℤ) * size + j < (i' : ℤ) * size + size := by omega
      _ = ((i' : ℤ) + 1) * size := by ring
      _ ≤ size * size := mul_le_mul_of_nonneg_right (by omega) (le_of_lt hs)

theorem C8_witness :
    0 ≤ ((0 : ℤ), (0 : ℤ)).1 ∧ ((0 : ℤ), (0 : ℤ)).1 < 1 * 1 ∧
      ∃ i j : ℤ, 0 ≤ i ∧ i < 1 ∧ 0 ≤ j ∧ j < 1 ∧
        ((0 : ℤ), (0 : ℤ)).1 = i * 1 + j :=
  C8_writes_in_bounds 1 1 ((0 : ℤ), (0 : ℤ)) (by decide)
    (by rw [writeTrace_one_one]; exact List.mem_cons_self _ _)

/-- C9 counterexample: the claim says each buffer index is written exactly
once per call.  At `size = 1`, `iterations = 2` the single cell performs
two non-escaping steps and the code writes `col[0]` on every non-escaping
step, so index `0` is written twice, not once. -/
theorem C9_counterexample :
    writeCount 0 (writeTrace 1 2) = 2 ∧ writeCount 0 (writeTrace 1 2) ≠ 1 := by
  have h : writeCount 0 (writeTrace 1 2) = 2 := by
    norm_num [writeCount, writeTrace, rowWrites, cellWrites, innerWrites,
      noEscape, implStepPair, cxOf, cyOf, List.range_succ, List.countP_cons]
  exact ⟨h, by omega⟩

/-- C9 (amended): for a valid call, every cell index in `[0, size*size)`
is written at least once, and no two cells alias: all writes to an index
come from its unique owning cell `(idx / size, idx % size)`, the number of
writes to it being exactly that cell's non-escaping step count (which can
exceed one, since the code rewrites `col[index]` on every non-escaping
iteration). -/
theorem C9_writes_per_index (size iterations idx : ℤ)
    (hs : 0 < size) (hit : 0 < iterations)
    (h0 : 0 ≤ idx) (h1 : idx < size * size) :
    writeCount idx (writeTrace size iterations) =
      cellCount size iterations (idx / size) (idx % size) ∧
      1 ≤ writeCount idx (writeTrace size iterations) := by
  obtain ⟨d0, d1, m0, m1, heq⟩ := idx_decomp size idx hs h0 h1
  have hwc : writeCount idx (writeTrace size iterations) =
      cellCount size iterations (idx / size) (idx % size) := by
    conv_lhs => rw [← heq]
    exact writeCount_cell size iterations _ _ d0 d1 m0 m1
  refine ⟨hwc, ?_⟩
  rw [hwc]
  exact cellCount_pos size iterations _ _ hit

theorem C9_witness :
    writeCount 0 (writeTrace 1 1) = cellCount 1 1 (0 / 1) (0 % 1) ∧
      1 ≤ writeCount 0 (writeTrace 1 1) :=
  C9_writes_per_index 1 1 0 (by decide) (by decide) (by decide) (by decide)

/-- C10 counterexample: the claim asserts that every call with `size ≤ 0`
or `iterations ≤ 0` terminates because *both grid loops execute zero
iterations*.  At `size = 3`, `iterations = 0` the outer grid loop runs
its body `3` times (once per row) — not zero — although the call indeed
performs no write. -/
theorem C10_counterexample :
    outerIterations 3 = 3 ∧ outerIterations 3 ≠ 0 ∧ writeTrace 3 0 = [] := by
  refine ⟨rfl, by decide, ?_⟩
  exact writeTrace_eq_nil 3 0 (Or.inr (by decide))

/-- C10 (amended): for every call with `size ≤ 0` or `iterations ≤ 0` the
routine returns normally, raises no error, and performs no write, leaving
every element of the buffer unchanged; the grid loops execute zero
iterations when `size ≤ 0`, while for `size > 0` with `iterations ≤ 0`
the grid loops do run but the inner loop runs zero iterations, so no
write occurs either way. -/
theorem C10_nonpositive_args_noop (size iterations : ℤ) (col : ℤ → ℤ)
    (h : size ≤ 0 ∨ iterations ≤ 0) :
    (size ≤ 0 → outerIterations size = 0) ∧
      writeTrace size iterations = [] ∧
      mandelbrot size iterations col = col := by
  have htr := writeTrace_eq_nil size iterations h
  refine ⟨?_, htr, ?_⟩
  · intro hsz
    rw [outerIterations, List.length_range]
    omega
  · rw [mandelbrot, htr]
    rfl

theorem C10_witness :
    ((3 : ℤ) ≤ 0 → outerIterations 3 = 0) ∧
      writeTrace 3 0 = [] ∧ mandelbrot 3 0 (fun _ => 2) = (fun _ => 2) :=
  C10_nonpositive_args_noop 3 0 (fun _ => 2) (Or.inr (by decide))

end Mandelbrot
